import Mathlib

set_option autoImplicit false

/-!
Verification development for the DynoHook hooking library.

This file gives a shallow embedding of the parts of the repository that the
checked properties are about:

* `src/src/virtuals/vhook.cpp` / `src/include/dynohook/virtuals/vhook.h` —
  the `VHook` record and its `hook` / `unhook` operations;
* `src/src/dynohook/convention.hpp` — `Align`, `GetDataTypeSize`,
  `ICallingConvention::init`, and the save/restore machinery for return
  values and call arguments.

Machine memory is modelled as a byte map `Nat → Nat`; heap buffers
(`std::unique_ptr<uint8_t[]>`) are modelled as `List Nat`; a C++
`std::vector` used as a stack (`push_back` / `back` / `pop_back`) is a
`List` whose top is the last element.  Undefined behaviour (calling
`.back()` on an empty vector, `memcpy` past a buffer's allocation) is
modelled with `Option`, `none` marking the undefined execution.
-/

namespace DynoHook

/-! ### Byte-addressed memory -/

/-- Machine memory as a map from byte addresses to byte values. -/
def Mem : Type := Nat → Nat

/-- Reads `n` consecutive bytes starting at `addr` (the source side of `memcpy`). -/
def readBytes (m : Mem) (addr n : Nat) : List Nat :=
  (List.range n).map fun i => m (addr + i)

/-- Writes the byte list `bs` to consecutive addresses starting at `addr`
(the destination side of `memcpy`). -/
def writeBytes : Mem → Nat → List Nat → Mem
  | m, _, [] => m
  | m, addr, b :: bs => writeBytes (fun a => if a = addr then b else m a) (addr + 1) bs

/-! ### VHook (`vhook.cpp`)

`VHook::hook` asserts `!m_hooked`, then calls `createBridge()`; on bridge
failure it logs and returns `false`, otherwise it sets `m_hooked` and
returns `true`.  `VHook::unhook` asserts `m_hooked`, clears the flag and
returns `true`; its body carries the comment "restore should be handled by
holder".  Neither function contains a store to the target address.

`createBridge` lives in `NatHook`, outside `src/`.  Modelled from the spec:
the bridge generator emits the bridge into a freshly allocated executable
region and records it in the hook record; it does not patch the target.
The parameter `bridge` below is `none` when `createBridge()` fails and
`some b` when it succeeds and the bridge was emitted at address `b`.
The memory argument models the bytes at the target address (the vtable
slot region), which `createBridge` never touches. -/

structure VHook where
  m_hooked : Bool
  /-- address of the original function -/
  m_fnAddress : Nat
  /-- Modelled from the spec: `NatHook`'s record of the generated bridge
  (absent from `src/`; the spec's Hook Record "holds ... the bridge's
  executable memory region"). -/
  m_bridge : Option Nat
  deriving DecidableEq

/-- Result of a `hook()` / `unhook()` call: the returned `bool`, the hook
record after the call, the target-address memory after the call, and the
messages logged during the call. -/
structure HookCallResult where
  ret : Bool
  self : VHook
  mem : Mem
  log : List String

/-- Embedding of `VHook::hook` (vhook.cpp lines 16–29), release semantics
(the `assert` compiled out). -/
def VHook.hook (bridge : Option Nat) (h : VHook) (mem : Mem) : HookCallResult :=
  if h.m_hooked then
    ⟨false, h, mem, ["Vhook failed: hook already present"]⟩
  else
    match bridge with
    | none => ⟨false, h, mem, ["Failed to create bridge"]⟩
    | some b => ⟨true, { h with m_hooked := true, m_bridge := some b }, mem, []⟩

/-- Embedding of `VHook::unhook` (vhook.cpp lines 31–40), release semantics. -/
def VHook.unhook (h : VHook) (mem : Mem) : HookCallResult :=
  if h.m_hooked then
    ⟨true, { h with m_hooked := false }, mem, []⟩
  else
    ⟨false, h, mem, ["Vhook failed: no hook present"]⟩

/-- A fresh, not-yet-hooked `VHook` on the function at address 100. -/
def vh1 : VHook := ⟨false, 100, none⟩

/-- Target memory whose vtable slot (at address 100) holds the original
function pointer 42. -/
def slotMem : Mem := fun a => if a = 100 then 42 else 0

/-- C1 (counterexample): hooking `vh1` with a bridge at address 7777
returns `true`, yet the vtable slot at address 100 still holds the
original value 42, not the bridge address — `hook()` performed no write
to the slot, contradicting the claim that after a successful `hook()` the
slot contains the bridge address. -/
theorem vhook_hook_cex :
    (VHook.hook (some 7777) vh1 slotMem).ret = true ∧
    (VHook.hook (some 7777) vh1 slotMem).mem 100 = 42 ∧ (42 : Nat) ≠ 7777 := by
  refine ⟨rfl, rfl, by decide⟩

/-- C1 (amended): a successful `VHook::hook` creates the bridge and sets
the hooked flag, and performs no write to the target memory: the entire
call result is `true`, the record with `m_hooked := true` and the bridge
recorded, the memory unchanged, and nothing logged.  The vtable-slot swap
is left to the hook's holder. -/
theorem vhook_hook_sets_flag_only (vh : VHook) (mem : Mem) (b : Nat)
    (h : vh.m_hooked = false) :
    VHook.hook (some b) vh mem =
      ⟨true, { vh with m_hooked := true, m_bridge := some b }, mem, []⟩ := by
  simp [VHook.hook, h]

/-- Witness for `vhook_hook_sets_flag_only` at the concrete input `vh1`. -/
theorem vhook_hook_sets_flag_only_witness :
    vh1.m_hooked = false ∧
    VHook.hook (some 7777) vh1 slotMem =
      ⟨true, { vh1 with m_hooked := true, m_bridge := some 7777 }, slotMem, []⟩ :=
  ⟨rfl, vhook_hook_sets_flag_only vh1 slotMem 7777 rfl⟩

/-- State after `vh1.hook (some 7777)` succeeded. -/
def afterHook : HookCallResult := VHook.hook (some 7777) vh1 slotMem

/-- Target memory after the holder (outside `VHook`) swapped the slot at
address 100 to the bridge address 7777. -/
def holderPatched : Mem := fun a => if a = 100 then 7777 else afterHook.mem a

/-- C2 (counterexample): starting from a slot holding 42, hooking with a
bridge at 7777 and letting the holder patch the slot, `unhook()` returns
`true` but the slot still holds 7777 — `unhook()` wrote nothing back, so
the slot does not again hold the pre-hook pointer 42, contradicting the
claim. -/
theorem vhook_unhook_cex :
    slotMem 100 = 42 ∧
    (VHook.unhook afterHook.self holderPatched).ret = true ∧
    (VHook.unhook afterHook.self holderPatched).mem 100 = 7777 ∧
    (7777 : Nat) ≠ 42 := by
  refine ⟨rfl, rfl, rfl, by decide⟩

/-- C2 (amended): `VHook::unhook` on a hooked record clears the hooked
flag and returns `true`, and performs no write to the target memory: the
restoration of the slot is delegated to the holder (per the source comment
"restore should be handled by holder"). -/
theorem vhook_unhook_clears_flag_only (vh : VHook) (mem : Mem)
    (h : vh.m_hooked = true) :
    VHook.unhook vh mem = ⟨true, { vh with m_hooked := false }, mem, []⟩ := by
  simp [VHook.unhook, h]

/-- Witness for `vhook_unhook_clears_flag_only` at the concrete state
reached after a successful hook. -/
theorem vhook_unhook_clears_flag_only_witness :
    afterHook.self.m_hooked = true ∧
    VHook.unhook afterHook.self holderPatched =
      ⟨true, { afterHook.self with m_hooked := false }, holderPatched, []⟩ :=
  ⟨rfl, vhook_unhook_clears_flag_only afterHook.self holderPatched rfl⟩

/-- C3: a successful `hook()` followed by `unhook()` leaves the bytes at
the target address bit-identical to their pre-hook state (here: the whole
target memory is unchanged, since neither operation writes it), and the
`unhook()` itself reports success. -/
theorem vhook_roundtrip (vh : VHook) (mem : Mem) (bridge : Option Nat)
    (h : (VHook.hook bridge vh mem).ret = true) :
    (VHook.unhook (VHook.hook bridge vh mem).self
        (VHook.hook bridge vh mem).mem).mem = mem ∧
    (VHook.unhook (VHook.hook bridge vh mem).self
        (VHook.hook bridge vh mem).mem).ret = true := by
  rcases hb : bridge with _ | b <;>
    rcases hh : vh.m_hooked <;>
      simp_all [VHook.hook, VHook.unhook]

/-- Witness for `vhook_roundtrip` at the concrete input `vh1` / `slotMem`. -/
theorem vhook_roundtrip_witness :
    (VHook.hook (some 7777) vh1 slotMem).ret = true ∧
    ((VHook.unhook (VHook.hook (some 7777) vh1 slotMem).self
        (VHook.hook (some 7777) vh1 slotMem).mem).mem = slotMem ∧
     (VHook.unhook (VHook.hook (some 7777) vh1 slotMem).self
        (VHook.hook (some 7777) vh1 slotMem).mem).ret = true) :=
  ⟨rfl, vhook_roundtrip vh1 slotMem (some 7777) rfl⟩

/-- C4: calling `hook()` on an already-hooked `VHook` fails: it returns
`false` with the already-hooked diagnostic, leaves the record (including
`m_hooked`) unchanged, and performs no write to the target memory. -/
theorem vhook_hook_already_hooked (vh : VHook) (mem : Mem) (bridge : Option Nat)
    (h : vh.m_hooked = true) :
    VHook.hook bridge vh mem =
      ⟨false, vh, mem, ["Vhook failed: hook already present"]⟩ := by
  simp [VHook.hook, h]

/-- Witness for `vhook_hook_already_hooked` on the state reached after a
first successful hook. -/
theorem vhook_hook_already_hooked_witness :
    afterHook.self.m_hooked = true ∧
    VHook.hook (some 9999) afterHook.self holderPatched =
      ⟨false, afterHook.self, holderPatched,
        ["Vhook failed: hook already present"]⟩ :=
  ⟨rfl, vhook_hook_already_hooked afterHook.self holderPatched (some 9999) rfl⟩

/-- C10: on a not-yet-hooked `VHook`, a `createBridge` failure makes
`hook()` return `false` with the record and memory unchanged (so it may be
retried), and for any bridge outcome the hooked flag ends up `true`
exactly when `hook()` returns `true`. -/
theorem vhook_hook_bridge_failure (vh : VHook) (mem : Mem) (bridge : Option Nat)
    (h : vh.m_hooked = false) :
    VHook.hook none vh mem = ⟨false, vh, mem, ["Failed to create bridge"]⟩ ∧
    ((VHook.hook bridge vh mem).self.m_hooked = true ↔
      (VHook.hook bridge vh mem).ret = true) := by
  rcases bridge with _ | b <;> simp_all [VHook.hook]

/-- Witness for `vhook_hook_bridge_failure` at the concrete input `vh1`. -/
theorem vhook_hook_bridge_failure_witness :
    vh1.m_hooked = false ∧
    (VHook.hook none vh1 slotMem =
        ⟨false, vh1, slotMem, ["Failed to create bridge"]⟩ ∧
     ((VHook.hook (some 7777) vh1 slotMem).self.m_hooked = true ↔
       (VHook.hook (some 7777) vh1 slotMem).ret = true)) :=
  ⟨rfl, vhook_hook_bridge_failure vh1 slotMem (some 7777) rfl⟩

/-! ### Calling convention (`convention.hpp`) -/

/-- The `DataType` enum of convention.hpp. -/
inductive DataType : Type
  | Void
  | Bool
  | Char
  | UChar
  | Short
  | UShort
  | Int
  | UInt
  | Long
  | ULong
  | LongLong
  | ULongLong
  | Float
  | Double
  | Pointer
  | String
  | M128
  | M256
  | M512
  | Object
  deriving DecidableEq

/-- Modelled from the spec: `RegisterType` comes from `registers.hpp`,
which is not under `src/`.  A descriptor's register slot is
"register-or-none"; for the checked properties only the distinction
between `NONE` (stack-resident) and a concrete register matters, so a
concrete register is represented by its index. -/
inductive RegisterType : Type
  | NONE
  | REG (idx : Nat)
  deriving DecidableEq

/-- The `DataObject` struct: `(type, register-or-none, size-bytes)`. -/
structure DataObject where
  type : DataType
  reg : RegisterType
  size : Nat
  deriving DecidableEq

/-- The `Align` helper of convention.hpp: the size rounded up to the next
multiple of `alignment`. -/
def Align (size alignment : Nat) : Nat :=
  let unaligned := size % alignment
  if unaligned = 0 then size else size + (alignment - unaligned)

/-- Raw (unaligned) byte size of each data type: the operand of `sizeof`
in `GetDataTypeSize`.  `ptrSize` is the platform `sizeof(void*)` (also
`sizeof(char*)`), `longSize` the platform `sizeof(long)`; the remaining C
types have the listed sizes on every platform the library supports.  The
switch's `default` case (reached for `Object`) returns 0. -/
def rawSize (ptrSize longSize : Nat) : DataType → Nat
  | .Void => 0
  | .Bool => 1
  | .Char => 1
  | .UChar => 1
  | .Short => 2
  | .UShort => 2
  | .Int => 4
  | .UInt => 4
  | .Long => longSize
  | .ULong => longSize
  | .LongLong => 8
  | .ULongLong => 8
  | .Float => 4
  | .Double => 8
  | .Pointer => ptrSize
  | .String => ptrSize
  | .M128 => 16
  | .M256 => 32
  | .M512 => 64
  | .Object => 0

/-- The `GetDataTypeSize` function of convention.hpp, mirroring its switch
case by case. -/
def GetDataTypeSize (ptrSize longSize : Nat) (type : DataType) (alignment : Nat) : Nat :=
  match type with
  | .Void => 0
  | .Bool => Align 1 alignment
  | .Char => Align 1 alignment
  | .UChar => Align 1 alignment
  | .Short => Align 2 alignment
  | .UShort => Align 2 alignment
  | .Int => Align 4 alignment
  | .UInt => Align 4 alignment
  | .Long => Align longSize alignment
  | .ULong => Align longSize alignment
  | .LongLong => Align 8 alignment
  | .ULongLong => Align 8 alignment
  | .Float => Align 4 alignment
  | .Double => Align 8 alignment
  | .Pointer => Align ptrSize alignment
  | .String => Align ptrSize alignment
  | .M128 => Align 16 alignment
  | .M256 => Align 32 alignment
  | .M512 => Align 64 alignment
  | .Object => 0

/-- State of an `ICallingConvention`: the argument descriptors, the return
descriptor, the alignment, the two cached byte counts, and the two
saved-buffer stacks (`std::vector` of heap buffers; the stack top is the
last list element, matching `push_back` / `back` / `pop_back`). -/
structure ICallingConvention where
  m_arguments : List DataObject
  m_return : DataObject
  m_alignment : Nat
  m_stackSize : Nat
  m_registerSize : Nat
  m_savedReturnBuffers : List (List Nat)
  m_savedCallArguments : List (List Nat)

/-- One descriptor's size fill-in inside `init`'s loop:
`if (!size) size = GetDataTypeSize(type, m_alignment);`. -/
def fillSize (ptrSize longSize alignment : Nat) (d : DataObject) : DataObject :=
  if d.size = 0 then
    { d with size := GetDataTypeSize ptrSize longSize d.type alignment }
  else d

/-- The loop of `ICallingConvention::init`: fills each argument's size and
accumulates the stack-resident (`reg == NONE`) and register-resident byte
counts. -/
def initLoop (ptrSize longSize alignment : Nat) :
    List DataObject → List DataObject × Nat × Nat
  | [] => ([], 0, 0)
  | d :: rest =>
    let d' := fillSize ptrSize longSize alignment d
    let t := initLoop ptrSize longSize alignment rest
    if d'.reg = RegisterType.NONE then
      (d' :: t.1, t.2.1 + d'.size, t.2.2)
    else
      (d' :: t.1, t.2.1, t.2.2 + d'.size)

/-- The `ICallingConvention::init` member: runs the loop over the
arguments and fills the return descriptor's size if it is zero. -/
def init (ptrSize longSize : Nat) (st : ICallingConvention) : ICallingConvention :=
  let t := initLoop ptrSize longSize st.m_alignment st.m_arguments
  { st with
    m_arguments := t.1
    m_stackSize := t.2.1
    m_registerSize := t.2.2
    m_return := fillSize ptrSize longSize st.m_alignment st.m_return }

/-- The `getArgStackSize` accessor. -/
def getArgStackSize (st : ICallingConvention) : Nat := st.m_stackSize

/-- The `getArgRegisterSize` accessor. -/
def getArgRegisterSize (st : ICallingConvention) : Nat := st.m_registerSize

/-- Sum of the declared sizes of a list of descriptors. -/
def sizesSum : List DataObject → Nat
  | [] => 0
  | d :: rest => d.size + sizesSum rest

/-- Unfolding of `initLoop`: it maps `fillSize` over the arguments and
returns the size sums of the stack-resident and register-resident parts. -/
theorem initLoop_spec (p l a : Nat) (args : List DataObject) :
    (initLoop p l a args).1 = args.map (fillSize p l a) ∧
    (initLoop p l a args).2.1 =
      sizesSum ((args.map (fillSize p l a)).filter
        fun d => decide (d.reg = RegisterType.NONE)) ∧
    (initLoop p l a args).2.2 =
      sizesSum ((args.map (fillSize p l a)).filter
        fun d => !decide (d.reg = RegisterType.NONE)) := by
  induction args with
  | nil => simp [initLoop, sizesSum]
  | cons d rest ih =>
    rcases ih with ⟨ih1, ih2, ih3⟩
    by_cases h : (fillSize p l a d).reg = RegisterType.NONE <;>
      simp [initLoop, h, ih1, ih2, ih3, sizesSum, List.filter_cons] <;>
        omega

/-- C6: after `init()`, the cached stack-argument byte count
(`getArgStackSize`) is the sum of the sizes of exactly the arguments whose
register is `NONE`, and the cached register-argument byte count
(`getArgRegisterSize`) is the sum of the sizes of exactly the arguments
assigned a register. -/
theorem init_cached_sizes (ptrSize longSize : Nat) (st : ICallingConvention) :
    getArgStackSize (init ptrSize longSize st) =
      sizesSum ((init ptrSize longSize st).m_arguments.filter
        fun d => decide (d.reg = RegisterType.NONE)) ∧
    getArgRegisterSize (init ptrSize longSize st) =
      sizesSum ((init ptrSize longSize st).m_arguments.filter
        fun d => !decide (d.reg = RegisterType.NONE)) := by
  have h := initLoop_spec ptrSize longSize st.m_alignment st.m_arguments
  rcases h with ⟨h1, h2, h3⟩
  constructor
  · simp [init, getArgStackSize, h1, h2]
  · simp [init, getArgRegisterSize, h1, h3]

/-- Any positive size stays positive after alignment, and zero stays zero. -/
theorem align_pos_iff (s a : Nat) : 0 < Align s a ↔ 0 < s := by
  unfold Align
  by_cases h : s % a = 0
  · simp [h]
  · have hs : 0 < s := by
      rcases Nat.eq_zero_or_pos s with h0 | h0
      · subst h0; simp at h
      · exact h0
    simp only [h, if_neg, ite_false]
    exact ⟨fun _ => hs, fun _ => Nat.lt_of_lt_of_le hs (Nat.le_add_right _ _)⟩

/-- `GetDataTypeSize` is `Align` of the raw size, for every data type. -/
theorem getDataTypeSize_eq (p l : Nat) (t : DataType) (a : Nat) :
    GetDataTypeSize p l t a = Align (rawSize p l t) a := by
  cases t <;> simp [GetDataTypeSize, rawSize, Align]

/-- For non-`Object` types with positive platform sizes, the raw size is
positive exactly for non-`Void` types. -/
theorem rawSize_pos_iff (p l : Nat) (hp : 1 ≤ p) (hl : 1 ≤ l) (t : DataType)
    (ht : t ≠ DataType.Object) :
    (0 < rawSize p l t ↔ t ≠ DataType.Void) := by
  cases t <;> simp_all [rawSize] <;> omega

/-- A convention record used to refute the unrestricted C5: its first
argument is an `int` with an explicit (unaligned) size 3, its second an
`Object` with size 0 to be inferred, alignment 4. -/
def convCex : ICallingConvention :=
  ⟨[⟨DataType.Int, RegisterType.NONE, 3⟩, ⟨DataType.Object, RegisterType.REG 0, 0⟩],
    ⟨DataType.Void, RegisterType.NONE, 0⟩, 4, 0, 0, [], []⟩

/-- C5 (counterexample): after `init()` (on an LP64 platform), the
explicit-size `int` argument of `convCex` keeps size 3 while
`Align(raw_size(Int), 4) = 4`, so `size == Align(raw_size, alignment)`
fails; and the `Object` argument ends with size 0 although its type is
not `Void`, so the asserted "size > 0 iff type ≠ Void" fails as well. -/
theorem conv_init_size_cex :
    ((init 8 8 convCex).m_arguments.getD 0 ⟨DataType.Void, RegisterType.NONE, 0⟩).size = 3 ∧
    Align (rawSize 8 8 DataType.Int) (init 8 8 convCex).m_alignment = 4 ∧
    (3 : Nat) ≠ 4 ∧
    ((init 8 8 convCex).m_arguments.getD 1 ⟨DataType.Void, RegisterType.NONE, 0⟩).size = 0 ∧
    DataType.Object ≠ DataType.Void := by
  refine ⟨by decide, by decide, by decide, by decide, by decide⟩

/-- C5 (amended): after `init()`, every descriptor (argument or return)
that was declared with size 0 and whose type is not `Object` is present
post-init with the same type and register and with
`size = Align(raw_size(type), alignment)`; for such a descriptor,
`size > 0` iff its type is not `Void`.  (Descriptors constructed with an
explicit nonzero size keep it unchanged, and the `Object` type has no raw
size: `GetDataTypeSize` falls into the switch's default case.) -/
theorem conv_init_size_amended (ptrSize longSize : Nat) (st : ICallingConvention)
    (d : DataObject) (hp : 1 ≤ ptrSize) (hl : 1 ≤ longSize)
    (hmem : d ∈ st.m_arguments ∨ d = st.m_return) (hsz : d.size = 0)
    (hobj : d.type ≠ DataType.Object) :
    ∃ d' : DataObject,
      (d' ∈ (init ptrSize longSize st).m_arguments ∨
        d' = (init ptrSize longSize st).m_return) ∧
      d'.type = d.type ∧ d'.reg = d.reg ∧
      d'.size = Align (rawSize ptrSize longSize d.type) st.m_alignment ∧
      (0 < d'.size ↔ d.type ≠ DataType.Void) := by
  refine ⟨fillSize ptrSize longSize st.m_alignment d, ?_, ?_, ?_, ?_, ?_⟩
  · rcases hmem with hmem | hmem
    · left
      have h1 := (initLoop_spec ptrSize longSize st.m_alignment st.m_arguments).1
      simp only [init, h1]
      exact List.mem_map_of_mem _ hmem
    · right
      simp [init, hmem]
  · simp [fillSize, hsz]
  · simp [fillSize, hsz]
  · simp [fillSize, hsz, getDataTypeSize_eq]
  · simp only [fillSize, hsz, if_pos]
    rw [getDataTypeSize_eq, align_pos_iff]
    exact rawSize_pos_iff ptrSize longSize hp hl d.type hobj

/-- Witness for `conv_init_size_amended`: the `int`-with-size-0 argument of
a concrete convention gets size `Align(4, 4) = 4 > 0`. -/
theorem conv_init_size_amended_witness :
    (1 ≤ 8 ∧ 1 ≤ 8 ∧
      (⟨DataType.Int, RegisterType.NONE, 0⟩ : DataObject) ∈
        ([⟨DataType.Int, RegisterType.NONE, 0⟩] : List DataObject) ∧
      (0 : Nat) = 0 ∧ DataType.Int ≠ DataType.Object) ∧
    ∃ d' : DataObject,
      (d' ∈ (init 8 8 ⟨[⟨DataType.Int, RegisterType.NONE, 0⟩],
          ⟨DataType.Void, RegisterType.NONE, 0⟩, 4, 0, 0, [], []⟩).m_arguments ∨
        d' = (init 8 8 ⟨[⟨DataType.Int, RegisterType.NONE, 0⟩],
          ⟨DataType.Void, RegisterType.NONE, 0⟩, 4, 0, 0, [], []⟩).m_return) ∧
      d'.type = DataType.Int ∧ d'.reg = RegisterType.NONE ∧
      d'.size = Align (rawSize 8 8 DataType.Int) 4 ∧
      (0 < d'.size ↔ DataType.Int ≠ DataType.Void) :=
  ⟨⟨by decide, by decide, by decide, by decide, by decide⟩,
    conv_init_size_amended 8 8
      ⟨[⟨DataType.Int, RegisterType.NONE, 0⟩],
        ⟨DataType.Void, RegisterType.NONE, 0⟩, 4, 0, 0, [], []⟩
      ⟨DataType.Int, RegisterType.NONE, 0⟩
      (by decide) (by decide) (Or.inl (by decide)) (by decide) (by decide)⟩

/-! ### Save/restore machinery for return values (`convention.hpp` 174–189) -/

/-- Pointwise description of `writeBytes`: addresses inside the written
range read the corresponding list entry, all others are untouched. -/
theorem writeBytes_apply (bs : List Nat) : ∀ (m : Mem) (addr a : Nat),
    writeBytes m addr bs a =
      if addr ≤ a ∧ a < addr + bs.length then bs.getD (a - addr) 0 else m a := by
  induction bs with
  | nil =>
    intro m addr a
    have h : ¬(addr ≤ a ∧ a < addr + ([] : List Nat).length) := by
      simp only [List.length_nil]; omega
    rw [show writeBytes m addr [] = m from rfl, if_neg h]
  | cons b rest ih =>
    intro m addr a
    rw [show writeBytes m addr (b :: rest) =
      writeBytes (fun x => if x = addr then b else m x) (addr + 1) rest from rfl]
    rw [ih]
    by_cases h0 : a = addr
    · subst h0
      have hc1 : ¬(a + 1 ≤ a ∧ a < a + 1 + rest.length) := by omega
      have hc2 : a ≤ a ∧ a < a + (b :: rest).length := by
        simp only [List.length_cons]; omega
      simp [hc1, hc2]
    · by_cases h1 : addr + 1 ≤ a ∧ a < addr + 1 + rest.length
      · have hc2 : addr ≤ a ∧ a < addr + (b :: rest).length := by
          simp only [List.length_cons]; omega
        simp only [if_pos h1, if_pos hc2]
        have ha : a - addr = (a - (addr + 1)) + 1 := by omega
        rw [ha]
        simp [List.getD_cons_succ]
      · have hc2 : ¬(addr ≤ a ∧ a < addr + (b :: rest).length) := by
          simp only [List.length_cons]; omega
        simp only [if_neg h1, if_neg hc2]
        simp [h0]

/-- Reading back exactly the bytes just written returns the written list. -/
theorem readBytes_writeBytes (m : Mem) (addr : Nat) (bs : List Nat) :
    readBytes (writeBytes m addr bs) addr bs.length = bs := by
  apply List.ext_getElem
  · simp [readBytes]
  · intro i h1 h2
    simp only [readBytes, List.getElem_map, List.getElem_range]
    rw [writeBytes_apply]
    have hc : addr ≤ addr + i ∧ addr + i < addr + bs.length := by
      simp only [readBytes, List.length_map, List.length_range] at h1
      omega
    rw [if_pos hc]
    have : addr + i - addr = i := by omega
    rw [this]
    exact List.getD_eq_getElem bs 0 h2

/-- Reads always produce exactly `n` bytes. -/
theorem readBytes_length (m : Mem) (addr n : Nat) : (readBytes m addr n).length = n := by
  simp [readBytes]

/-- Embedding of `ICallingConvention::saveReturnValue` (convention.hpp
174–178): copies `m_return.size` bytes from the return slot — at address
`retPtr`, the value of the virtual `getReturnPtr(registers)` for the
current snapshot — into a freshly allocated buffer pushed onto
`m_savedReturnBuffers`. -/
def saveReturnValue (retPtr : Nat) (st : ICallingConvention) (mem : Mem) :
    ICallingConvention :=
  { st with m_savedReturnBuffers :=
      st.m_savedReturnBuffers ++ [readBytes mem retPtr st.m_return.size] }

/-- Embedding of `ICallingConvention::restoreReturnValue` (convention.hpp
184–189): copies `m_return.size` bytes from the most recently pushed
buffer back to the return slot, then pops the buffer.  `none` models the
undefined executions: `.back()` on an empty vector, or `memcpy` reading
past the buffer's allocation.  `onReturnPtrChanged` is the base class's
no-op default. -/
def restoreReturnValue (retPtr : Nat) (st : ICallingConvention) (mem : Mem) :
    Option (ICallingConvention × Mem) :=
  match st.m_savedReturnBuffers.getLast? with
  | none => none
  | some buf =>
    if st.m_return.size ≤ buf.length then
      some ({ st with m_savedReturnBuffers := st.m_savedReturnBuffers.dropLast },
        writeBytes mem retPtr (buf.take st.m_return.size))
    else none

/-- Computation rule for `restoreReturnValue` on a state whose stack ends
in a sufficiently large buffer. -/
theorem restoreReturnValue_concat (st : ICallingConvention) (buf : List Nat)
    (mem : Mem) (retPtr : Nat) (h : st.m_return.size ≤ buf.length) :
    restoreReturnValue retPtr
        { st with m_savedReturnBuffers := st.m_savedReturnBuffers ++ [buf] } mem =
      some (st, writeBytes mem retPtr (buf.take st.m_return.size)) := by
  simp [restoreReturnValue, List.getLast?_concat, List.dropLast_concat, h]

/-- C7: `saveReturnValue` pushes a copy of the return slot's
`m_return.size` bytes onto the return-buffer stack, and a subsequent
`restoreReturnValue` — after the return slot was arbitrarily modified to
`mem'` — pops exactly that most recently pushed buffer (LIFO), writes the
saved bytes back so the return slot again reads its saved contents, and
leaves the stack at its original depth (indeed its original contents). -/
theorem save_restore_return_value (st : ICallingConvention) (mem mem' : Mem)
    (retPtr : Nat) :
    (saveReturnValue retPtr st mem).m_savedReturnBuffers =
      st.m_savedReturnBuffers ++ [readBytes mem retPtr st.m_return.size] ∧
    ∃ st2 mem2,
      restoreReturnValue retPtr (saveReturnValue retPtr st mem) mem' =
        some (st2, mem2) ∧
      st2.m_savedReturnBuffers = st.m_savedReturnBuffers ∧
      readBytes mem2 retPtr st.m_return.size =
        readBytes mem retPtr st.m_return.size := by
  constructor
  · rfl
  · have hlen : (readBytes mem retPtr st.m_return.size).length = st.m_return.size :=
      readBytes_length mem retPtr st.m_return.size
    have htake : (readBytes mem retPtr st.m_return.size).take st.m_return.size =
        readBytes mem retPtr st.m_return.size :=
      List.take_of_length_le (le_of_eq hlen)
    have hres := restoreReturnValue_concat st
      (readBytes mem retPtr st.m_return.size) mem' retPtr (le_of_eq hlen.symm)
    refine ⟨st, writeBytes mem' retPtr
      ((readBytes mem retPtr st.m_return.size).take st.m_return.size), ?_, rfl, ?_⟩
    · exact hres
    · rw [htake]
      have h3 := readBytes_writeBytes mem' retPtr (readBytes mem retPtr st.m_return.size)
      rwa [hlen] at h3

/-- A call trace against one convention's return-value machinery: each
entry is a `saveReturnValue` or `restoreReturnValue` call, recorded with
the return-slot address of its register snapshot. -/
inductive RVOp : Type
  | save (retPtr : Nat)
  | restore (retPtr : Nat)
  deriving DecidableEq

/-- Runs a trace of return-value save/restore calls, threading the
convention state and the memory; the run is `none` as soon as a call hits
undefined behaviour. -/
def runRVOps : List RVOp → ICallingConvention → Mem → Option (ICallingConvention × Mem)
  | [], st, mem => some (st, mem)
  | RVOp.save p :: rest, st, mem => runRVOps rest (saveReturnValue p st mem) mem
  | RVOp.restore p :: rest, st, mem =>
    match restoreReturnValue p st mem with
    | none => none
    | some (st', mem') => runRVOps rest st' mem'

/-- Every restore in the trace is preceded by a matching unrestored save,
starting from a saved-buffer stack of depth `d`. -/
def wellNested : List RVOp → Nat → Bool
  | [], _ => true
  | RVOp.save _ :: rest, d => wellNested rest (d + 1)
  | RVOp.restore _ :: rest, d => decide (0 < d) && wellNested rest (d - 1)

/-- C9: if every buffer on the saved-return stack holds at least
`m_return.size` bytes (true in particular of the empty stack) and every
`restoreReturnValue` in the trace is preceded by a matching unrestored
`saveReturnValue`, then the whole trace runs without hitting the
empty-stack `.back()` or any out-of-bounds buffer access: the run
returns `some`. -/
theorem restore_return_value_safe (ops : List RVOp) (st : ICallingConvention)
    (mem : Mem)
    (hbuf : ∀ b ∈ st.m_savedReturnBuffers, st.m_return.size ≤ b.length)
    (hnest : wellNested ops st.m_savedReturnBuffers.length = true) :
    ∃ r, runRVOps ops st mem = some r := by
  induction ops generalizing st mem with
  | nil => exact ⟨(st, mem), rfl⟩
  | cons op rest ih =>
    cases op with
    | save p =>
      apply ih
      · intro b hb
        simp only [saveReturnValue, List.mem_append, List.mem_singleton] at hb
        rcases hb with hb | hb
        · exact hbuf b hb
        · subst hb
          simp [saveReturnValue, readBytes_length]
      · simp only [wellNested] at hnest
        simpa [saveReturnValue] using hnest
    | restore p =>
      simp only [wellNested, Bool.and_eq_true, decide_eq_true_eq] at hnest
      rcases hnest with ⟨hpos, hnest⟩
      rcases hl : st.m_savedReturnBuffers.getLast? with _ | buf
      · rw [List.getLast?_eq_none_iff] at hl
        rw [hl] at hpos
        simp at hpos
      · have hmem : buf ∈ st.m_savedReturnBuffers := by
          have h2 := List.dropLast_append_getLast? buf (show buf ∈ _ from hl)
          rw [← h2]
          simp
        have hsz : st.m_return.size ≤ buf.length := hbuf buf hmem
        simp only [runRVOps, restoreReturnValue, hl, if_pos hsz]
        apply ih
        · intro b hb
          exact hbuf b (List.dropLast_subset _ hb)
        · simpa [List.length_dropLast] using hnest

/-- Witness for `restore_return_value_safe`: a save/restore pair on a
fresh convention with an `int` return runs to completion. -/
theorem restore_return_value_safe_witness :
    (∀ b ∈ ([] : List (List Nat)), (4 : Nat) ≤ b.length) ∧
    ∃ r, runRVOps [RVOp.save 300, RVOp.restore 300]
      ⟨[], ⟨DataType.Int, RegisterType.REG 0, 4⟩, 4, 0, 0, [], []⟩
      (fun _ => 0) = some r :=
  ⟨by intro b hb; simp at hb,
    restore_return_value_safe [RVOp.save 300, RVOp.restore 300]
      ⟨[], ⟨DataType.Int, RegisterType.REG 0, 4⟩, 4, 0, 0, [], []⟩
      (fun _ => 0) (by intro b hb; simp at hb) (by decide)⟩

/-! ### Save/restore machinery for call arguments (`convention.hpp` 198–223) -/

/-- Writes `bs` into a heap buffer at byte offset `off` (the `memcpy` into
`savedCallArguments.get() + offset`); `none` models a write past the
buffer's allocation. -/
def writeListAt (buf : List Nat) (off : Nat) (bs : List Nat) : Option (List Nat) :=
  if off + bs.length ≤ buf.length then
    some (buf.take off ++ bs ++ buf.drop (off + bs.length))
  else none

/-- The loop of `saveCallArguments`: copies argument `i` — of
`m_arguments[i].size` bytes, read from `getArgumentPtr(i, registers)`,
abstracted as `argPtr i` — into the buffer at the running offset. -/
def saveArgsLoop (argPtr : Nat → Nat) (mem : Mem) :
    List DataObject → Nat → Nat → List Nat → Option (List Nat)
  | [], _, _, buf => some buf
  | d :: rest, i, off, buf =>
    match writeListAt buf off (readBytes mem (argPtr i) d.size) with
    | none => none
    | some buf' => saveArgsLoop argPtr mem rest (i + 1) (off + d.size) buf'

/-- Embedding of `ICallingConvention::saveCallArguments` (convention.hpp
198–208): allocates a zero-initialized buffer of
`getArgStackSize() + getArgRegisterSize()` bytes, serializes all
arguments into it in declaration order, and pushes it onto
`m_savedCallArguments`. -/
def saveCallArguments (argPtr : Nat → Nat) (st : ICallingConvention) (mem : Mem) :
    Option ICallingConvention :=
  match saveArgsLoop argPtr mem st.m_arguments 0 0
      (List.replicate (getArgStackSize st + getArgRegisterSize st) 0) with
  | none => none
  | some buf =>
    some { st with m_savedCallArguments := st.m_savedCallArguments ++ [buf] }

/-- The loop of `restoreCallArguments`: copies argument `i`'s bytes from
the buffer at the running offset back to `getArgumentPtr(i, registers)`;
`none` models a read past the buffer's allocation. -/
def restoreArgsLoop (argPtr : Nat → Nat) (buf : List Nat) :
    List DataObject → Nat → Nat → Mem → Option Mem
  | [], _, _, mem => some mem
  | d :: rest, i, off, mem =>
    if off + d.size ≤ buf.length then
      restoreArgsLoop argPtr buf rest (i + 1) (off + d.size)
        (writeBytes mem (argPtr i) ((buf.drop off).take d.size))
    else none

/-- Embedding of `ICallingConvention::restoreCallArguments` (convention.hpp
214–223): pops the most recently pushed argument buffer and writes each
argument's bytes back to its location. -/
def restoreCallArguments (argPtr : Nat → Nat) (st : ICallingConvention) (mem : Mem) :
    Option (ICallingConvention × Mem) :=
  match st.m_savedCallArguments.getLast? with
  | none => none
  | some buf =>
    match restoreArgsLoop argPtr buf st.m_arguments 0 0 mem with
    | none => none
    | some mem' =>
      some ({ st with m_savedCallArguments := st.m_savedCallArguments.dropLast },
        mem')

/-- Bytes of the arguments from declaration index `i` onward, concatenated
in declaration order. -/
def serializeArgs (argPtr : Nat → Nat) (mem : Mem) : List DataObject → Nat → List Nat
  | [], _ => []
  | d :: rest, i =>
    readBytes mem (argPtr i) d.size ++ serializeArgs argPtr mem rest (i + 1)

/-- Serialized arguments occupy exactly the sum of the declared sizes. -/
theorem serializeArgs_length (argPtr : Nat → Nat) (mem : Mem) :
    ∀ (args : List DataObject) (i : Nat),
      (serializeArgs argPtr mem args i).length = sizesSum args := by
  intro args
  induction args with
  | nil => intro i; rfl
  | cons d rest ih =>
    intro i
    simp [serializeArgs, sizesSum, readBytes_length, ih]

/-- Entries of a freshly read byte range. -/
theorem readBytes_getD (m : Mem) (addr n k : Nat) (h : k < n) :
    (readBytes m addr n).getD k 0 = m (addr + k) := by
  have hlen : k < (readBytes m addr n).length := by
    rw [readBytes_length]; exact h
  rw [List.getD_eq_getElem _ _ hlen]
  simp [readBytes]

/-- Closed form of the `saveCallArguments` loop: when the remaining
arguments fit, it splices their serialized bytes into the buffer at the
running offset. -/
theorem saveArgsLoop_eq (argPtr : Nat → Nat) (mem : Mem) :
    ∀ (args : List DataObject) (i off : Nat) (buf : List Nat),
      off ≤ buf.length → off + sizesSum args ≤ buf.length →
      saveArgsLoop argPtr mem args i off buf =
        some (buf.take off ++ serializeArgs argPtr mem args i ++
          buf.drop (off + sizesSum args)) := by
  intro args
  induction args with
  | nil =>
    intro i off buf hoff hfit
    simp [saveArgsLoop, serializeArgs, sizesSum, List.take_append_drop]
  | cons d rest ih =>
    intro i off buf hoff hfit
    have hS : sizesSum (d :: rest) = d.size + sizesSum rest := rfl
    have hsz : off + d.size ≤ buf.length := by omega
    have hseg : (readBytes mem (argPtr i) d.size).length = d.size :=
      readBytes_length mem (argPtr i) d.size
    have hcond : off + (readBytes mem (argPtr i) d.size).length ≤ buf.length := by
      rw [hseg]; exact hsz
    simp only [saveArgsLoop, writeListAt, if_pos hcond]
    rw [hseg]
    have hpre : (buf.take off ++ readBytes mem (argPtr i) d.size).length =
        off + d.size := by
      simp only [List.length_append, List.length_take, hseg]
      omega
    have hbuflen :
        (buf.take off ++ readBytes mem (argPtr i) d.size ++
          buf.drop (off + d.size)).length = buf.length := by
      simp only [List.length_append, List.length_take, List.length_drop, hseg]
      omega
    rw [ih (i + 1) (off + d.size)
      (buf.take off ++ readBytes mem (argPtr i) d.size ++ buf.drop (off + d.size))
      (by rw [hbuflen]; exact hsz) (by rw [hbuflen]; omega)]
    have htk : (buf.take off ++ readBytes mem (argPtr i) d.size ++
        buf.drop (off + d.size)).take (off + d.size) =
        buf.take off ++ readBytes mem (argPtr i) d.size :=
      List.take_left' hpre
    have hdp : (buf.take off ++ readBytes mem (argPtr i) d.size ++
        buf.drop (off + d.size)).drop (off + d.size + sizesSum rest) =
        buf.drop (off + d.size + sizesSum rest) := by
      rw [← List.drop_drop, List.drop_left' hpre, List.drop_drop]
    rw [htk, hdp, hS]
    simp only [serializeArgs, List.append_assoc]
    have harith : off + d.size + sizesSum rest = off + (d.size + sizesSum rest) := by
      omega
    rw [harith]

/-- Each argument's segment of the serialized buffer, located at the sum
of the preceding declared sizes, is exactly that argument's bytes. -/
theorem serializeArgs_segment (argPtr : Nat → Nat) (mem : Mem) :
    ∀ (args : List DataObject) (i0 k : Nat) (h : k < args.length),
      ((serializeArgs argPtr mem args i0).drop (sizesSum (args.take k))).take
          (args.get ⟨k, h⟩).size =
        readBytes mem (argPtr (i0 + k)) (args.get ⟨k, h⟩).size := by
  intro args
  induction args with
  | nil =>
    intro i0 k h
    exact absurd h (by simp)
  | cons d rest ih =>
    intro i0 k h
    cases k with
    | zero =>
      have hg : (d :: rest).get ⟨0, h⟩ = d := rfl
      have ht : (d :: rest).take 0 = [] := rfl
      rw [hg, ht]
      show ((readBytes mem (argPtr i0) d.size ++
        serializeArgs argPtr mem rest (i0 + 1)).drop (sizesSum [])).take d.size =
        readBytes mem (argPtr (i0 + 0)) d.size
      rw [show sizesSum [] = 0 from rfl, List.drop_zero, Nat.add_zero]
      exact List.take_left' (readBytes_length mem (argPtr i0) d.size)
    | succ k' =>
      have h' : k' < rest.length := by
        simp only [List.length_cons] at h
        omega
      have hg : (d :: rest).get ⟨k' + 1, h⟩ = rest.get ⟨k', h'⟩ := rfl
      have ht : (d :: rest).take (k' + 1) = d :: rest.take k' := rfl
      rw [hg, ht]
      show ((readBytes mem (argPtr i0) d.size ++
        serializeArgs argPtr mem rest (i0 + 1)).drop
          (sizesSum (d :: rest.take k'))).take (rest.get ⟨k', h'⟩).size = _
      rw [show sizesSum (d :: rest.take k') = d.size + sizesSum (rest.take k')
        from rfl]
      rw [← List.drop_drop, List.drop_left' (readBytes_length mem (argPtr i0) d.size)]
      rw [ih (i0 + 1) k' h']
      rw [show i0 + 1 + k' = i0 + (k' + 1) from by omega]

/-- Reads are determined by the memory values in the read range. -/
theorem readBytes_congr (m1 m2 : Mem) (addr n : Nat)
    (h : ∀ a, addr ≤ a → a < addr + n → m1 a = m2 a) :
    readBytes m1 addr n = readBytes m2 addr n := by
  apply List.ext_getElem
  · simp [readBytes]
  · intro i h1 h2
    simp only [readBytes, List.getElem_map, List.getElem_range]
    apply h
    · omega
    · simp only [readBytes, List.length_map, List.length_range] at h1
      omega

/-- Correctness of the `restoreCallArguments` loop: if the buffer holds,
at each running offset, exactly the bytes `mem` holds at the matching
argument location, then the loop completes, never un-fixes an address
that already agrees with `mem`, and makes every remaining argument range
agree with `mem`. -/
theorem restoreArgsLoop_spec (argPtr : Nat → Nat) (mem : Mem) (buf : List Nat) :
    ∀ (args : List DataObject) (i0 off : Nat) (m' : Mem),
      off + sizesSum args ≤ buf.length →
      (∀ (k : Nat) (h : k < args.length),
        (buf.drop (off + sizesSum (args.take k))).take (args.get ⟨k, h⟩).size =
          readBytes mem (argPtr (i0 + k)) (args.get ⟨k, h⟩).size) →
      ∃ mem2, restoreArgsLoop argPtr buf args i0 off m' = some mem2 ∧
        (∀ a, m' a = mem a → mem2 a = mem a) ∧
        (∀ (k : Nat) (hk : k < args.length) (a : Nat),
          argPtr (i0 + k) ≤ a → a < argPtr (i0 + k) + (args.get ⟨k, hk⟩).size →
          mem2 a = mem a) := by
  intro args
  induction args with
  | nil =>
    intro i0 off m' hfit hseg
    exact ⟨m', rfl, fun a ha => ha, fun k hk => absurd hk (by simp)⟩
  | cons d rest ih =>
    intro i0 off m' hfit hseg
    have hS : sizesSum (d :: rest) = d.size + sizesSum rest := rfl
    have hsz : off + d.size ≤ buf.length := by
      rw [hS] at hfit
      omega
    have hseg0 : (buf.drop off).take d.size = readBytes mem (argPtr i0) d.size := by
      have h0 := hseg 0 (by simp)
      simpa using h0
    have hm1 : writeBytes m' (argPtr i0) ((buf.drop off).take d.size) =
        writeBytes m' (argPtr i0) (readBytes mem (argPtr i0) d.size) := by
      rw [hseg0]
    have hm1range : ∀ a, argPtr i0 ≤ a → a < argPtr i0 + d.size →
        writeBytes m' (argPtr i0) ((buf.drop off).take d.size) a = mem a := by
      intro a h1 h2
      rw [hm1, writeBytes_apply]
      rw [if_pos (by rw [readBytes_length]; exact ⟨h1, h2⟩)]
      rw [readBytes_getD mem (argPtr i0) d.size (a - argPtr i0) (by omega)]
      congr 1
      omega
    have hm1pres : ∀ a, m' a = mem a →
        writeBytes m' (argPtr i0) ((buf.drop off).take d.size) a = mem a := by
      intro a ha
      rw [hm1, writeBytes_apply]
      by_cases hc : argPtr i0 ≤ a ∧ a < argPtr i0 + (readBytes mem (argPtr i0) d.size).length
      · rw [if_pos hc]
        rw [readBytes_length] at hc
        rw [readBytes_getD mem (argPtr i0) d.size (a - argPtr i0) (by omega)]
        congr 1
        omega
      · rw [if_neg hc]
        exact ha
    have hfit' : off + d.size + sizesSum rest ≤ buf.length := by
      rw [hS] at hfit
      omega
    have hseg' : ∀ (k : Nat) (h : k < rest.length),
        (buf.drop (off + d.size + sizesSum (rest.take k))).take
            (rest.get ⟨k, h⟩).size =
          readBytes mem (argPtr (i0 + 1 + k)) (rest.get ⟨k, h⟩).size := by
      intro k hk
      have hk1 : k + 1 < (d :: rest).length := by
        simp only [List.length_cons]
        omega
      have h1 := hseg (k + 1) hk1
      rw [show (d :: rest).get ⟨k + 1, hk1⟩ = rest.get ⟨k, hk⟩ from rfl] at h1
      rw [show (d :: rest).take (k + 1) = d :: rest.take k from rfl] at h1
      rw [show sizesSum (d :: rest.take k) = d.size + sizesSum (rest.take k)
        from rfl] at h1
      rw [show off + (d.size + sizesSum (rest.take k)) =
        off + d.size + sizesSum (rest.take k) from by omega] at h1
      rw [show i0 + (k + 1) = i0 + 1 + k from by omega] at h1
      exact h1
    obtain ⟨mem2, hrun, hpres, hranges⟩ := ih (i0 + 1) (off + d.size)
      (writeBytes m' (argPtr i0) ((buf.drop off).take d.size)) hfit' hseg'
    refine ⟨mem2, ?_, ?_, ?_⟩
    · simp only [restoreArgsLoop, if_pos hsz]
      exact hrun
    · intro a ha
      exact hpres a (hm1pres a ha)
    · intro k hk a h1 h2
      cases k with
      | zero =>
        rw [show (d :: rest).get ⟨0, hk⟩ = d from rfl] at h2
        rw [Nat.add_zero] at h1 h2
        exact hpres a (hm1range a h1 h2)
      | succ k' =>
        have hk' : k' < rest.length := by
          simp only [List.length_cons] at hk
          omega
        rw [show (d :: rest).get ⟨k' + 1, hk⟩ = rest.get ⟨k', hk'⟩ from rfl] at h2
        rw [show i0 + (k' + 1) = i0 + 1 + k' from by omega] at h1 h2
        exact hranges k' hk' a h1 h2

/-- C8: with the cached byte counts consistent with the declared sizes
(the post-`init()` state, by `init_cached_sizes`), `saveCallArguments`
pushes one buffer of exactly `getArgStackSize() + getArgRegisterSize()`
bytes holding all arguments serialized in declaration order — argument
`k` occupies exactly its declared size at the offset equal to the sum of
the declared sizes of arguments `0..k-1` — and `restoreCallArguments`,
run after memory was arbitrarily changed to `mem'`, pops that most
recently pushed buffer and writes each argument's bytes back to its
location. -/
theorem save_restore_call_arguments (st : ICallingConvention) (mem mem' : Mem)
    (argPtr : Nat → Nat)
    (hsum : sizesSum st.m_arguments = getArgStackSize st + getArgRegisterSize st) :
    ∃ st1 : ICallingConvention,
      saveCallArguments argPtr st mem = some st1 ∧
      st1.m_savedCallArguments = st.m_savedCallArguments ++
        [serializeArgs argPtr mem st.m_arguments 0] ∧
      (serializeArgs argPtr mem st.m_arguments 0).length =
        getArgStackSize st + getArgRegisterSize st ∧
      (∀ (k : Nat) (h : k < st.m_arguments.length),
        ((serializeArgs argPtr mem st.m_arguments 0).drop
            (sizesSum (st.m_arguments.take k))).take
          (st.m_arguments.get ⟨k, h⟩).size =
          readBytes mem (argPtr k) (st.m_arguments.get ⟨k, h⟩).size) ∧
      ∃ (st2 : ICallingConvention) (mem2 : Mem),
        restoreCallArguments argPtr st1 mem' = some (st2, mem2) ∧
        st2.m_savedCallArguments = st.m_savedCallArguments ∧
        (∀ (k : Nat) (h : k < st.m_arguments.length),
          readBytes mem2 (argPtr k) (st.m_arguments.get ⟨k, h⟩).size =
            readBytes mem (argPtr k) (st.m_arguments.get ⟨k, h⟩).size) := by
  have hserlen : (serializeArgs argPtr mem st.m_arguments 0).length =
      sizesSum st.m_arguments :=
    serializeArgs_length argPtr mem st.m_arguments 0
  have hreplen :
      (List.replicate (getArgStackSize st + getArgRegisterSize st) (0 : Nat)).length =
      getArgStackSize st + getArgRegisterSize st :=
    List.length_replicate _ _
  have hloop := saveArgsLoop_eq argPtr mem st.m_arguments 0 0
    (List.replicate (getArgStackSize st + getArgRegisterSize st) (0 : Nat))
    (by rw [hreplen]; omega) (by rw [hreplen]; omega)
  have hdropnil :
      (List.replicate (getArgStackSize st + getArgRegisterSize st) (0 : Nat)).drop
        (0 + sizesSum st.m_arguments) = [] := by
    apply List.drop_eq_nil_of_le
    rw [hreplen]
    omega
  rw [hdropnil, List.take_zero, List.nil_append, List.append_nil] at hloop
  have hsave : saveCallArguments argPtr st mem =
      some { st with m_savedCallArguments := st.m_savedCallArguments ++
        [serializeArgs argPtr mem st.m_arguments 0] } := by
    simp only [saveCallArguments, hloop]
  refine ⟨{ st with m_savedCallArguments := st.m_savedCallArguments ++
    [serializeArgs argPtr mem st.m_arguments 0] }, hsave, rfl, ?_, ?_, ?_⟩
  · rw [hserlen, hsum]
  · intro k h
    have hs := serializeArgs_segment argPtr mem st.m_arguments 0 k h
    rwa [Nat.zero_add] at hs
  · have hfit : 0 + sizesSum st.m_arguments ≤
        (serializeArgs argPtr mem st.m_arguments 0).length := by
      rw [hserlen]
      omega
    have hseg : ∀ (k : Nat) (h : k < st.m_arguments.length),
        ((serializeArgs argPtr mem st.m_arguments 0).drop
            (0 + sizesSum (st.m_arguments.take k))).take
          (st.m_arguments.get ⟨k, h⟩).size =
          readBytes mem (argPtr (0 + k)) (st.m_arguments.get ⟨k, h⟩).size := by
      intro k hk
      rw [Nat.zero_add]
      exact serializeArgs_segment argPtr mem st.m_arguments 0 k hk
    obtain ⟨mem2, hrun, hpres, hranges⟩ := restoreArgsLoop_spec argPtr mem
      (serializeArgs argPtr mem st.m_arguments 0) st.m_arguments 0 0 mem' hfit hseg
    refine ⟨{ st with m_savedCallArguments :=
      (st.m_savedCallArguments ++
        [serializeArgs argPtr mem st.m_arguments 0]).dropLast }, mem2, ?_, ?_, ?_⟩
    · simp only [restoreCallArguments, List.getLast?_concat, hrun]
    · simp [List.dropLast_concat]
    · intro k h
      apply readBytes_congr
      intro a ha1 ha2
      have hr := hranges k h a
      rw [Nat.zero_add] at hr
      exact hr ha1 ha2

/-- A concrete post-init convention for the C8 witness: one stack-resident
`int` argument of size 4, total stack bytes 4, register bytes 0. -/
def stW : ICallingConvention :=
  ⟨[⟨DataType.Int, RegisterType.NONE, 4⟩], ⟨DataType.Void, RegisterType.NONE, 0⟩,
    4, 4, 0, [], []⟩

/-- Concrete argument-location map for the C8 witness. -/
def argPtrW : Nat → Nat := fun k => 200 + 8 * k

/-- Concrete pre-call memory for the C8 witness. -/
def memW : Mem := fun a => a % 251

/-- Concrete clobbered memory for the C8 witness. -/
def memW2 : Mem := fun _ => 9

/-- Witness for `save_restore_call_arguments` at the concrete convention
`stW`. -/
theorem save_restore_call_arguments_witness :
    sizesSum stW.m_arguments = getArgStackSize stW + getArgRegisterSize stW ∧
    (∃ st1 : ICallingConvention,
      saveCallArguments argPtrW stW memW = some st1 ∧
      st1.m_savedCallArguments = stW.m_savedCallArguments ++
        [serializeArgs argPtrW memW stW.m_arguments 0] ∧
      (serializeArgs argPtrW memW stW.m_arguments 0).length =
        getArgStackSize stW + getArgRegisterSize stW ∧
      (∀ (k : Nat) (h : k < stW.m_arguments.length),
        ((serializeArgs argPtrW memW stW.m_arguments 0).drop
            (sizesSum (stW.m_arguments.take k))).take
          (stW.m_arguments.get ⟨k, h⟩).size =
          readBytes memW (argPtrW k) (stW.m_arguments.get ⟨k, h⟩).size) ∧
      ∃ (st2 : ICallingConvention) (mem2 : Mem),
        restoreCallArguments argPtrW st1 memW2 = some (st2, mem2) ∧
        st2.m_savedCallArguments = stW.m_savedCallArguments ∧
        (∀ (k : Nat) (h : k < stW.m_arguments.length),
          readBytes mem2 (argPtrW k) (stW.m_arguments.get ⟨k, h⟩).size =
            readBytes memW (argPtrW k) (stW.m_arguments.get ⟨k, h⟩).size)) :=
  ⟨by decide, save_restore_call_arguments stW memW memW2 argPtrW (by decide)⟩

end DynoHook
